import Mathlib

/-!
Verification of the pyface resource manager and toolkit-backend selector.

This file gives a shallow embedding of the two source files

  * `enthought/resource/resource_manager.py` (`ResourceManager._locate_image`
    and its helpers), and
  * `pyface/toolkit.py` (`toolkit_object`),

together with proofs of the specified properties.

Modelling conventions:

  * Paths and strings are `List Char`; the posix variants of the `os.path`
    functions (`split`, `splitext`, `splitdrive`, `join`) are translated
    directly from the Python 2 standard library.  On posix,
    `os.path.splitdrive p = ("", p)`, which is inlined where it is used.
  * The filesystem and the zip library are an abstract record `FS`:
    `dirList` is `os.listdir`, `isFile` is `os.path.isfile`, `isZip` is
    `zipfile.is_zipfile`, `zipOpenOk` tells whether the `ZipFile`
    constructor succeeds on a path, and `zipRead z e` is
    `ZipFile(z).read(e)`, with `none` standing for a raised exception.
  * `glob.glob` is modelled as in Python 2 `glob.py`: a pattern without
    wildcards is an existence test returning the pattern itself, a pattern
    with a wildcard in its final component lists the directory, drops
    hidden names (unless the pattern starts with a dot), filters with
    `fnmatch` and rejoins.  `fnmatch` is modelled through the tokenized
    form of `fnmatch.translate`, honoring the `*` and `?` wildcards and
    `[seq]` / `[!seq]` character classes with ranges; `glob.has_magic`
    checks for any of `*`, `?`, `[`.  Wildcards in directory components
    of the pattern are not expanded recursively.
  * A Python computation that can raise or fail to terminate returns
    `PyResult`: `ok` is a normal return, `exn` an uncaught exception, and
    `hang` non-termination (reached when the fuel of the archive-boundary
    `while` loop runs out, that loop being the only unbounded one).
  * The result is instrumented with a `Hit` recording which candidate
    matched; `locateImage` erases the instrumentation.
-/

/-- The characters of a string literal, used to write `List Char` constants. -/
def chars (s : String) : List Char := s.data

/-- Index of the last occurrence of `c`, the model of Python `str.rfind`
(`none` for rfind = -1). -/
def lastIdxOf (c : Char) : List Char → Option Nat
  | [] => none
  | a :: as =>
    match lastIdxOf c as with
    | some j => some (j + 1)
    | none => if a = c then some 0 else none

/-- Whether the string is a (nonempty or empty) run of slashes only. -/
def allSlash (l : List Char) : Bool := l.all (fun c => c == '/')

/-- The model of Python `str.rstrip('/')`: remove the maximal trailing run
of slashes. -/
def rstripSlash : List Char → List Char
  | [] => []
  | c :: cs =>
    let r := rstripSlash cs
    if r = [] then (if c = '/' then [] else [c]) else c :: r

/-- `posixpath.split`: split off the final path component.  Translated from
Python 2 `posixpath.py`: `i = p.rfind('/') + 1; head, tail = p[:i], p[i:];
if head and head != '/'*len(head): head = head.rstrip('/')`. -/
def pySplit (p : List Char) : List Char × List Char :=
  match lastIdxOf '/' p with
  | none => ([], p)
  | some j =>
    let head := p.take (j + 1)
    let tail := p.drop (j + 1)
    if head ≠ [] ∧ ¬ allSlash head = true then (rstripSlash head, tail) else (head, tail)

/-- `posixpath.splitext`: split off the extension.  Translated from Python 2
`genericpath._splitext` with `sep = '/'`, `extsep = '.'`: the extension
starts at the last dot, provided that dot lies after the last slash and the
basename is not entirely dots up to it. -/
def splitext (p : List Char) : List Char × List Char :=
  match lastIdxOf '.' p with
  | none => (p, [])
  | some di =>
    let start := match lastIdxOf '/' p with | none => 0 | some j => j + 1
    if start ≤ di ∧ ((p.drop start).take (di - start)).any (fun c => c != '.') = true then
      (p.take di, p.drop di)
    else (p, [])

/-- Binary `posixpath.join`: `if b.startswith('/'): b; elif a == '' or
a.endswith('/'): a + b; else: a + '/' + b`. -/
def pyJoin (a b : List Char) : List Char :=
  if b.head? = some '/' then b
  else if a = [] ∨ a.getLast? = some '/' then a ++ b
  else a ++ '/' :: b

/-- The suffixes of a string, used to give `*` its any-sequence meaning. -/
def tailsOf : List Char → List (List Char)
  | [] => [[]]
  | c :: cs => (c :: cs) :: tailsOf cs

/-- Membership of a character in a `[seq]` class body, with `a-b` ranges as
in the regex class `fnmatch.translate` builds; a `-` without both endpoints
is a literal member. -/
def charInSet (c : Char) : List Char → Bool
  | a :: '-' :: b :: rest =>
    (decide (a.toNat ≤ c.toNat) && decide (c.toNat ≤ b.toNat)) || charInSet c rest
  | a :: rest => (a == c) || charInSet c rest
  | [] => false

/-- Split a class body at the first `]`, returning the body and the rest of
the pattern; `none` when the class is never closed. -/
def splitAtClose : List Char → Option (List Char × List Char)
  | [] => none
  | ']' :: rest => some ([], rest)
  | c :: rest =>
    match splitAtClose rest with
    | some (stuff, rest') => some (c :: stuff, rest')
    | none => none

/-- The bracket scan of `fnmatch.translate`: after a `[`, a leading `!` and
then a leading `]` are part of the class body, and the body extends to the
next `]`; `none` (an unclosed class) makes the `[` a literal character. -/
def scanClassStuff (l : List Char) : Option (List Char × List Char) :=
  match l with
  | '!' :: ']' :: rest =>
    match splitAtClose rest with
    | some (s, r) => some ('!' :: ']' :: s, r)
    | none => none
  | '!' :: rest =>
    match splitAtClose rest with
    | some (s, r) => some ('!' :: s, r)
    | none => none
  | ']' :: rest =>
    match splitAtClose rest with
    | some (s, r) => some (']' :: s, r)
    | none => none
  | _ =>
    splitAtClose l

/-- One token of a translated glob pattern: a literal character, `?`, `*`,
or a (possibly negated) character class. -/
inductive GlobTok where
  | lit (c : Char)
  | anyOne
  | anySeq
  | cls (neg : Bool) (body : List Char)
deriving DecidableEq

/-- Fuel-indexed translation of a glob pattern into tokens, the model of
`fnmatch.translate`: `*` and `?` become wildcards, `[` opens a class when
it closes (a leading `!` negates) and is literal otherwise, every other
character is literal.  Every step consumes at least one pattern character,
so `length + 1` fuel always suffices (see `globTranslate`). -/
def globTranslateF : Nat → List Char → List GlobTok
  | 0, _ => []
  | n + 1, p =>
    match p with
    | [] => []
    | c :: rest =>
      if c = '*' then GlobTok.anySeq :: globTranslateF n rest
      else if c = '?' then GlobTok.anyOne :: globTranslateF n rest
      else if c = '[' then
        match scanClassStuff rest with
        | some sr =>
          (match sr.1 with
           | '!' :: body => GlobTok.cls true body
           | body => GlobTok.cls false body) :: globTranslateF n sr.2
        | none => GlobTok.lit '[' :: globTranslateF n rest
      else GlobTok.lit c :: globTranslateF n rest

/-- Translation of a glob pattern into tokens (see `globTranslateF`). -/
def globTranslate (p : List Char) : List GlobTok :=
  globTranslateF (p.length + 1) p

/-- Anchored match of a token list against a name: `anySeq` matches any
(possibly empty) suffix split, `anyOne` any single character, a class one
character through `charInSet`, and the empty token list only the empty
name (the `$` anchor of the translated regex). -/
def matchToks : List GlobTok → List Char → Bool
  | [], s => s.isEmpty
  | .anySeq :: toks, s => (tailsOf s).any (fun t => matchToks toks t)
  | .anyOne :: _, [] => false
  | .anyOne :: toks, _ :: cs => matchToks toks cs
  | .lit _ :: _, [] => false
  | .lit c :: toks, c' :: cs => c == c' && matchToks toks cs
  | .cls _ _ :: _, [] => false
  | .cls neg body :: toks, c' :: cs =>
    (if neg then !(charInSet c' body) else charInSet c' body) && matchToks toks cs

/-- `fnmatch.fnmatch` of a glob basename pattern against a name. -/
def fnmatch (pat s : List Char) : Bool := matchToks (globTranslate pat) s

/-- Whether a glob pattern contains a wildcard: `glob.has_magic` searches
for any of `*`, `?`, `[`. -/
def hasMagic (p : List Char) : Bool := p.contains '*' || p.contains '?' || p.contains '['

/-- The filesystem and zip-library interface used by `_locate_image`.
`zipRead z e = none` models `ZipFile(z).read(e)` raising. -/
structure FS where
  dirList : List Char → List (List Char)
  isFile : List Char → Bool
  isZip : List Char → Bool
  zipOpenOk : List Char → Bool
  zipRead : List Char → List Char → Option (List Nat)

/-- `os.path.lexists`, expressed through the directory listing. -/
def lexists (dl : List Char → List (List Char)) (p : List Char) : Bool :=
  let pr := pySplit p
  decide (pr.2 ∈ dl pr.1)

/-- The hidden-file filter of Python 2 `glob.glob1`: names starting with a
dot are dropped unless the pattern itself starts with a dot. -/
def hiddenFilter (pat : List Char) (names : List (List Char)) : List (List Char) :=
  if pat.head? = some '.' then names
  else names.filter (fun n => !(n.head? == some '.'))

/-- The model of Python 2 `glob.glob`: a literal pattern is an existence
test; a pattern with a wildcard lists the directory of its final component,
filters with `fnmatch` (after the hidden-file filter) and rejoins.  The
result order is the directory-listing order, which `glob` does not sort. -/
def globModel (dl : List Char → List (List Char)) (p : List Char) : List (List Char) :=
  if hasMagic p then
    if (pySplit p).1 = [] then
      (hiddenFilter (pySplit p).2 (dl (chars "."))).filter (fun n => fnmatch (pySplit p).2 n)
    else ((hiddenFilter (pySplit p).2 (dl (pySplit p).1)).filter
      (fun n => fnmatch (pySplit p).2 n)).map (fun n => pyJoin (pySplit p).1 n)
  else if lexists dl p then [p] else []

/-- A located image resource: `ResourceManager._locate_image` builds either
a filename-backed or a data-backed `ImageReference`. -/
inductive ImageRef where
  | file (filename : List Char)
  | data (bytes : List Nat)
deriving DecidableEq

/-- Instrumentation describing which candidate produced a reference: a glob
match in a directory, an entry of an `images.zip`, or an entry of a zip
archive found by the upward walk. -/
inductive Hit where
  | globFile (filename : List Char)
  | imagesZip (zipfile : List Char) (entry : List Char)
  | enclosingZip (zipfile : List Char) (entry : List Char)
deriving DecidableEq

/-- The filename or archive entry a hit matched. -/
def hitPath : Hit → List Char
  | .globFile f => f
  | .imagesZip _ e => e
  | .enclosingZip _ e => e

/-- Outcome of a Python computation: normal return, uncaught exception, or
non-termination. -/
inductive PyResult (α : Type) where
  | ok (a : α)
  | exn
  | hang
deriving DecidableEq

/-- `ResourceManager.IMAGE_EXTENSIONS`. -/
def IMAGE_EXTENSIONS : List (List Char) :=
  [chars ".png", chars ".jpg", chars ".bmp", chars ".gif", chars ".ico"]

/-- The extension list `_locate_image` accepts for a name: the name's own
extension when it has one, otherwise `IMAGE_EXTENSIONS`. -/
def extsOf (nm : List Char) : List (List Char) :=
  if (splitext nm).2 = [] then IMAGE_EXTENSIONS else [(splitext nm).2]

/-- The glob pattern `_locate_image` uses for a name: the name itself when
it has an extension, otherwise the name followed by `.*`. -/
def patternOf (nm : List Char) : List Char :=
  if (splitext nm).2 = [] then nm ++ chars ".*" else nm

/-- Decimal digits of a size component (`'%d' % n` for a natural size). -/
def natChars (n : Nat) : List Char := Nat.toDigits 10 n

/-- The size-specific subdirectory `'images/%dx%d' % (size[0], size[1])`. -/
def sizeSubdir (w h : Nat) : List Char :=
  chars "images/" ++ natChars w ++ 'x' :: natChars h

/-- The subdirectory list `_locate_image` scans inside a path entry:
`['images/WxH', 'images', '']` with a size hint, `['images', '']` without. -/
def subdirsOf : Option (Nat × Nat) → List (List Char)
  | none => [chars "images", []]
  | some (w, h) => [sizeSubdir w h, chars "images", []]

/-- The inner filename loop of the glob phase: the first glob result whose
extension is in the accepted list wins. -/
def scanFiles (exts : List (List Char)) : List (List Char) → Option (ImageRef × Hit)
  | [] => none
  | f :: rest =>
    if (splitext f).2 ∈ exts then some (ImageRef.file f, Hit.globFile f)
    else scanFiles exts rest

/-- One glob probe: `glob.glob(join(dirname, sub, pattern))` scanned by
`scanFiles`. -/
def globSub (dl : List Char → List (List Char)) (exts : List (List Char))
    (pat d s : List Char) : Option (ImageRef × Hit) :=
  scanFiles exts (globModel dl (pyJoin (pyJoin d s) pat))

/-- The subdirectory loop of the glob phase, stopping at the first match. -/
def globPhase (dl : List Char → List (List Char)) (exts : List (List Char))
    (pat d : List Char) : List (List Char) → Option (ImageRef × Hit)
  | [] => none
  | s :: subs =>
    match globSub dl exts pat d s with
    | some rh => some rh
    | none => globPhase dl exts pat d subs

/-- The extension loop of the `images.zip` branch: `zip_file.read(basename +
extension)` for each accepted extension, first successful read wins; a
failed read is a caught exception. -/
def zipTryExts (fs : FS) (z bn : List Char) : List (List Char) → Option (List Char × List Nat)
  | [] => none
  | e :: es =>
    match fs.zipRead z (bn ++ e) with
    | some dta => some (bn ++ e, dta)
    | none => zipTryExts fs z bn es

/-- The name of the `images.zip` candidate of a path entry. -/
def zipfnOf (d : List Char) : List Char := pyJoin d (chars "images.zip")

/-- The `images.zip` branch of `_locate_image`.  `os.path.isfile` guards the
branch; the `ZipFile` constructor is outside the `try`, so its failure is an
uncaught exception; read failures fall through to the next extension. -/
def imagesZipPhase (fs : FS) (nm d : List Char) : PyResult (Option (ImageRef × Hit)) :=
  let z := zipfnOf d
  if fs.isFile z then
    if fs.zipOpenOk z then
      match zipTryExts fs z (splitext nm).1 (extsOf nm) with
      | some (e, dta) => .ok (some (ImageRef.data dta, Hit.imagesZip z e))
      | none => .ok none
    else .exn
  else .ok none

/-- The archive-boundary walk of `_locate_image`: repeatedly `os.path.split`
the path, accumulating the split-off tails into the archive-internal
subpath, until `is_zipfile` succeeds or the (posix) drive-relative part is
`'\'` or `'/'`.  The Python loop is unbounded; fuel exhaustion models
non-termination. -/
def archiveWalk (fs : FS) : Nat → List Char → List Char → Option (List Char × List Char)
  | 0, _, _ => none
  | n + 1, fp, zp =>
    if fs.isZip fp = false ∧ fp ≠ ['\\'] ∧ fp ≠ ['/'] then
      let pr := pySplit fp
      archiveWalk fs n pr.1 (if zp ≠ [] then pr.2 ++ '/' :: zp else pr.2)
    else some (fp, zp)

/-- Archive entry name built by the enclosing-zip branch: `zippath + '/'`
(when nonempty) then `subpath + '/'` (when nonempty) then `basename +
extension`. -/
def zipEntryPath (zp sub bn ext : List Char) : List Char :=
  (if zp = [] then [] else zp ++ ['/']) ++
    (if sub = [] then [] else sub ++ ['/']) ++ bn ++ ext

/-- Extension loop of the enclosing-zip branch for one subpath. -/
def zipSubTryExts (fs : FS) (z zp bn sub : List Char) :
    List (List Char) → Option (List Char × List Nat)
  | [] => none
  | e :: es =>
    let entry := zipEntryPath zp sub bn e
    match fs.zipRead z entry with
    | some dta => some (entry, dta)
    | none => zipSubTryExts fs z zp bn sub es

/-- Subpath loop of the enclosing-zip branch: `['images', '']`, each with
every accepted extension, first successful read wins. -/
def zipSubTry (fs : FS) (z zp bn : List Char) (exts : List (List Char)) :
    List (List Char) → Option (List Char × List Nat)
  | [] => none
  | sub :: subs =>
    match zipSubTryExts fs z zp bn sub exts with
    | some r => some r
    | none => zipSubTry fs z zp bn exts subs

/-- The enclosing-zip branch of `_locate_image`: walk up to the archive
boundary, then, when a zipfile was found, probe it; the `ZipFile`
constructor is again outside any `try`. -/
def walkPhase (fs : FS) (fuel : Nat) (nm d : List Char) : PyResult (Option (ImageRef × Hit)) :=
  match archiveWalk fs fuel d [] with
  | none => .hang
  | some (fp, zp) =>
    if fs.isZip fp then
      if fs.zipOpenOk fp then
        match zipSubTry fs fp zp (splitext nm).1 (extsOf nm) [chars "images", []] with
        | some (e, dta) => .ok (some (ImageRef.data dta, Hit.enclosingZip fp e))
        | none => .ok none
      else .exn
    else .ok none

/-- The body of `_locate_image` for one path entry: glob phase, then
`images.zip`, then the enclosing-zip walk. -/
def searchDir (fs : FS) (fuel : Nat) (nm : List Char) (sz : Option (Nat × Nat))
    (d : List Char) : PyResult (Option (ImageRef × Hit)) :=
  match globPhase fs.dirList (extsOf nm) (patternOf nm) d (subdirsOf sz) with
  | some rh => .ok (some rh)
  | none =>
    match imagesZipPhase fs nm d with
    | .ok (some rh) => .ok (some rh)
    | .ok none => walkPhase fs fuel nm d
    | .exn => .exn
    | .hang => .hang

/-- `ResourceManager._locate_image`, instrumented with the matching
candidate: the outer loop over the resource path, returning the first
match and `ok none` when every entry is exhausted. -/
def locateImageF (fs : FS) (fuel : Nat) (nm : List Char) (sz : Option (Nat × Nat)) :
    List (List Char) → PyResult (Option (ImageRef × Hit))
  | [] => .ok none
  | d :: rest =>
    match searchDir fs fuel nm sz d with
    | .ok (some rh) => .ok (some rh)
    | .ok none => locateImageF fs fuel nm sz rest
    | .exn => .exn
    | .hang => .hang

/-- `ResourceManager._locate_image` with the instrumentation erased. -/
def locateImage (fs : FS) (fuel : Nat) (nm : List Char) (sz : Option (Nat × Nat))
    (rp : List (List Char)) : PyResult (Option ImageRef) :=
  match locateImageF fs fuel nm sz rp with
  | .ok (some (r, _)) => .ok (some r)
  | .ok none => .ok none
  | .exn => .exn
  | .hang => .hang

/-- Outcome of `__import__(module)` in `toolkit_object`: success, an
`ImportError` carrying the filename of the last traceback frame, or any
other exception (which the `except ImportError` clause does not catch). -/
inductive ImportOutcome where
  | ok
  | importError (lastFrameFile : List Char)
  | otherError
deriving DecidableEq

/-- The ambient Python state `toolkit_object` consults: the import system,
module attributes (`none` is a raised `AttributeError`), and whether
`ETS_DEBUG` is in the environment. -/
structure TkWorld where
  importOutcome : List Char → ImportOutcome
  getattrOf : List Char → List Char → Option Nat
  etsDebug : Bool

/-- A value returned by `toolkit_object`: a real backend object or the
`Unimplemented` placeholder class. -/
inductive TkObj where
  | real (o : Nat)
  | unimplemented
deriving DecidableEq

/-- The module-path root of the selected backend: `_init_toolkit` hard-codes
`ETSConfig.toolkit = 'qt4'`, so `_toolkit_backend = 'pyface.ui.qt4.'`. -/
def toolkitBackend : List Char := chars "pyface.ui.qt4."

/-- Split a request name at its first colon (`none` when there is none). -/
def breakColon : List Char → Option (List Char × List Char)
  | [] => none
  | c :: cs =>
    if c = ':' then some ([], cs)
    else
      match breakColon cs with
      | some (a, b) => some (c :: a, b)
      | none => none

/-- The model of `mname, oname = name.split(':')`: defined exactly when the
name holds a single colon; otherwise the unpacking raises `ValueError`. -/
def splitColon (nm : List Char) : Option (List Char × List Char) :=
  match breakColon nm with
  | none => none
  | some (a, b) => if ':' ∈ b then none else some (a, b)

/-- Python substring containment (`needle in hay`). -/
def containsSub (needle : List Char) : List Char → Bool
  | [] => needle.isEmpty
  | c :: cs => needle.isPrefixOf (c :: cs) || containsSub needle cs

/-- `pyface.toolkit.toolkit_object`: split the name, import the backend
module, fetch the attribute.  `AttributeError` from `getattr` is always
swallowed; `ImportError` is swallowed unless `ETS_DEBUG` is set and the last
traceback frame's filename does not contain the backend path; any other
exception from the import propagates. -/
def toolkit_object (w : TkWorld) (nm : List Char) : PyResult TkObj :=
  match splitColon nm with
  | none => .exn
  | some (mname, oname) =>
    let be_mname := toolkitBackend ++ mname
    match w.importOutcome be_mname with
    | .ok =>
      match w.getattrOf be_mname oname with
      | some o => .ok (.real o)
      | none => .ok .unimplemented
    | .importError f =>
      if w.etsDebug then
        if containsSub toolkitBackend f then .ok .unimplemented else .exn
      else .ok .unimplemented
    | .otherError => .exn

/-- Instantiating a value returned by `toolkit_object`: calling the
`Unimplemented` placeholder raises `NotImplementedError` (`none`); a real
object constructs normally. -/
def instantiateTk : TkObj → Option Nat
  | .real o => some o
  | .unimplemented => none

/-! ### Predicates and concrete fixtures used by the verification -/

/-- Per-directory no-match condition: the glob phase finds nothing, an
existing `images.zip` opens but yields no readable accepted entry, the
archive-boundary walk terminates, and an enclosing archive, when present,
opens but yields no readable accepted entry. -/
def NoMatchDir (fs : FS) (fuel : Nat) (nm : List Char) (sz : Option (Nat × Nat))
    (d : List Char) : Prop :=
  globPhase fs.dirList (extsOf nm) (patternOf nm) d (subdirsOf sz) = none ∧
  (fs.isFile (zipfnOf d) = true → fs.zipOpenOk (zipfnOf d) = true ∧
    zipTryExts fs (zipfnOf d) (splitext nm).1 (extsOf nm) = none) ∧
  (∃ fp zp, archiveWalk fs fuel d [] = some (fp, zp) ∧
    (fs.isZip fp = true → fs.zipOpenOk fp = true ∧
      zipSubTry fs fp zp (splitext nm).1 (extsOf nm) [chars "images", []] = none))

/-- The archive-boundary walk terminates on a path when some fuel makes it
return. -/
def WalkTerminates (fs : FS) (p : List Char) : Prop :=
  ∃ n, (archiveWalk fs n p []).isSome = true

/-- The requested backend object cannot be found: the module imports but
lacks the attribute, or the import raises `ImportError`. -/
def CannotFind (w : TkWorld) (m o : List Char) : Prop :=
  (w.importOutcome m = .ok ∧ w.getattrOf m o = none) ∨
    (∃ f, w.importOutcome m = .importError f)

/-- A filesystem with no files, no zips, nothing readable. -/
def emptyFS : FS :=
  ⟨fun _ => [], fun _ => false, fun _ => false, fun _ => false, fun _ _ => none⟩

/-- Fixture: a single `foo.png` in `/p/images`. -/
def fsFoo : FS :=
  ⟨fun d => if d = chars "/p/images" then [chars "foo.png"] else [],
   fun _ => false, fun _ => false, fun _ => true, fun _ _ => none⟩

/-- Fixture: `/p/images` lists `foo.jpg` before `foo.png`. -/
def fsOrder : FS :=
  ⟨fun d => if d = chars "/p/images" then [chars "foo.jpg", chars "foo.png"] else [],
   fun _ => false, fun _ => false, fun _ => true, fun _ _ => none⟩

/-- Fixture: `/p/images.zip` exists as a file but is not a readable zip
archive (the `ZipFile` constructor raises). -/
def fsBadZipA : FS :=
  ⟨fun d => if d = chars "/p" then [chars "images.zip"] else [],
   fun p => p == chars "/p/images.zip", fun _ => false, fun _ => false, fun _ _ => none⟩

/-- Fixture: `/r/images.zip` exists as a file but is not a readable zip
archive. -/
def fsBadZipB : FS :=
  ⟨fun d => if d = chars "/r" then [chars "images.zip"] else [],
   fun p => p == chars "/r/images.zip", fun _ => false, fun _ => false, fun _ _ => none⟩

/-- Fixture: `/p/images.zip` is a valid archive holding `foo.png` at its
root. -/
def fsZipRoot : FS :=
  ⟨fun d => if d = chars "/p" then [chars "images.zip"] else [],
   fun p => p == chars "/p/images.zip", fun _ => false, fun _ => true,
   fun z e => if z = chars "/p/images.zip" ∧ e = chars "foo.png" then some [7] else none⟩

/-- Fixture: `/p/images.zip` is a valid archive holding `images/foo.png`
(and no root entry). -/
def fsZipSub : FS :=
  ⟨fun d => if d = chars "/p" then [chars "images.zip"] else [],
   fun p => p == chars "/p/images.zip", fun _ => false, fun _ => true,
   fun z e => if z = chars "/p/images.zip" ∧ e = chars "images/foo.png" then some [7] else none⟩

/-- Fixture: `/p/images.zip` is a valid archive holding `foo.jpg` at its
root (and no `foo.png`). -/
def fsZipJpg : FS :=
  ⟨fun d => if d = chars "/p" then [chars "images.zip"] else [],
   fun p => p == chars "/p/images.zip", fun _ => false, fun _ => true,
   fun z e => if z = chars "/p/images.zip" ∧ e = chars "foo.jpg" then some [5] else none⟩

/-- Fixture: `foo.png` both in the size-specific `/p/images/2x3` and in
`/p/images`. -/
def fsSize : FS :=
  ⟨fun d => if d = chars "/p/images/2x3" then [chars "foo.png"]
     else if d = chars "/p/images" then [chars "foo.png"] else [],
   fun _ => false, fun _ => false, fun _ => true, fun _ _ => none⟩

/-- Toolkit fixture: every module imports, no module has any attribute,
debug unset. -/
def wOkNoAttr : TkWorld := ⟨fun _ => .ok, fun _ _ => none, false⟩

/-- Toolkit fixture: imports fail with `ImportError` whose last traceback
frame is `toolkit.py` itself (as for a genuinely missing backend module),
with `ETS_DEBUG` set. -/
def wImportErrToolkitFile : TkWorld :=
  ⟨fun _ => .importError (chars "/usr/lib/python2.7/site-packages/pyface/toolkit.py"),
   fun _ _ => none, true⟩

/-- Toolkit fixture: imports fail with `ImportError` whose last traceback
frame names the backend, with `ETS_DEBUG` set. -/
def wImportErrBackendFile : TkWorld :=
  ⟨fun _ => .importError (chars "/usr/lib/site-packages/pyface.ui.qt4.init.py"),
   fun _ _ => none, true⟩

/-- Toolkit fixture: imports fail with an exception that is not an
`ImportError`, with `ETS_DEBUG` unset. -/
def wOtherErr : TkWorld := ⟨fun _ => .otherError, fun _ _ => none, false⟩

/-! ### Inversion and short-circuit lemmas for the locator -/

theorem locate_cons_found {fs : FS} {fuel nm sz d rh} (rest : List (List Char))
    (h : searchDir fs fuel nm sz d = .ok (some rh)) :
    locateImageF fs fuel nm sz (d :: rest) = .ok (some rh) := by
  simp [locateImageF, h]

theorem locate_cons_skip {fs : FS} {fuel nm sz d} (rest : List (List Char))
    (h : searchDir fs fuel nm sz d = .ok none) :
    locateImageF fs fuel nm sz (d :: rest) = locateImageF fs fuel nm sz rest := by
  simp [locateImageF, h]

theorem locate_ok_some_inv {fs : FS} {fuel nm sz rp rh}
    (h : locateImageF fs fuel nm sz rp = .ok (some rh)) :
    ∃ d ∈ rp, searchDir fs fuel nm sz d = .ok (some rh) := by
  induction rp with
  | nil => simp [locateImageF] at h
  | cons d rest ih =>
    rw [locateImageF] at h
    cases hd : searchDir fs fuel nm sz d with
    | ok o =>
      cases o with
      | some rh' =>
        rw [hd] at h
        exact ⟨d, by simp, by rw [hd]; exact congrArg _ (by injection h)⟩
      | none =>
        rw [hd] at h
        obtain ⟨d', hmem, hs⟩ := ih h
        exact ⟨d', by simp [hmem], hs⟩
    | exn => rw [hd] at h; exact absurd h (by simp)
    | hang => rw [hd] at h; exact absurd h (by simp)

theorem locate_exn_inv {fs : FS} {fuel nm sz rp}
    (h : locateImageF fs fuel nm sz rp = .exn) :
    ∃ d ∈ rp, searchDir fs fuel nm sz d = .exn := by
  induction rp with
  | nil => simp [locateImageF] at h
  | cons d rest ih =>
    rw [locateImageF] at h
    cases hd : searchDir fs fuel nm sz d with
    | ok o =>
      cases o with
      | some rh' => rw [hd] at h; exact absurd h (by simp)
      | none =>
        rw [hd] at h
        obtain ⟨d', hmem, hs⟩ := ih h
        exact ⟨d', by simp [hmem], hs⟩
    | exn => exact ⟨d, by simp, hd⟩
    | hang => rw [hd] at h; exact absurd h (by simp)

theorem imagesZipPhase_ok_some_inv {fs : FS} {nm d rh}
    (h : imagesZipPhase fs nm d = .ok (some rh)) :
    fs.isFile (zipfnOf d) = true ∧ fs.zipOpenOk (zipfnOf d) = true ∧
      ∃ e dta, zipTryExts fs (zipfnOf d) (splitext nm).1 (extsOf nm) = some (e, dta) ∧
        rh = (ImageRef.data dta, Hit.imagesZip (zipfnOf d) e) := by
  simp only [imagesZipPhase] at h
  by_cases hfile : fs.isFile (zipfnOf d) = true
  · rw [if_pos hfile] at h
    by_cases hopen : fs.zipOpenOk (zipfnOf d) = true
    · rw [if_pos hopen] at h
      cases hread : zipTryExts fs (zipfnOf d) (splitext nm).1 (extsOf nm) with
      | none => rw [hread] at h; simp at h
      | some p =>
        obtain ⟨e, dta⟩ := p
        rw [hread] at h
        simp only [PyResult.ok.injEq, Option.some.injEq] at h
        exact ⟨hfile, hopen, e, dta, rfl, h.symm⟩
    · rw [if_neg hopen] at h; simp at h
  · rw [if_neg hfile] at h; simp at h

theorem imagesZipPhase_exn_inv {fs : FS} {nm d}
    (h : imagesZipPhase fs nm d = .exn) :
    fs.isFile (zipfnOf d) = true ∧ fs.zipOpenOk (zipfnOf d) = false := by
  simp only [imagesZipPhase] at h
  by_cases hfile : fs.isFile (zipfnOf d) = true
  · rw [if_pos hfile] at h
    by_cases hopen : fs.zipOpenOk (zipfnOf d) = true
    · rw [if_pos hopen] at h
      cases hread : zipTryExts fs (zipfnOf d) (splitext nm).1 (extsOf nm) with
      | none => rw [hread] at h; simp at h
      | some p => obtain ⟨e, dta⟩ := p; rw [hread] at h; simp at h
    · exact ⟨hfile, by simpa using hopen⟩
  · rw [if_neg hfile] at h; simp at h

theorem imagesZipPhase_skip {fs : FS} {nm d}
    (hfile : fs.isFile (zipfnOf d) = false) :
    imagesZipPhase fs nm d = .ok none := by
  simp [imagesZipPhase, hfile]

theorem walkPhase_ok_some_inv {fs : FS} {fuel nm d rh}
    (h : walkPhase fs fuel nm d = .ok (some rh)) :
    ∃ fp zp e dta, archiveWalk fs fuel d [] = some (fp, zp) ∧
      fs.isZip fp = true ∧ fs.zipOpenOk fp = true ∧
      zipSubTry fs fp zp (splitext nm).1 (extsOf nm) [chars "images", []] = some (e, dta) ∧
      rh = (ImageRef.data dta, Hit.enclosingZip fp e) := by
  simp only [walkPhase] at h
  cases hwalk : archiveWalk fs fuel d [] with
  | none => rw [hwalk] at h; simp at h
  | some pr =>
    obtain ⟨fp, zp⟩ := pr
    rw [hwalk] at h
    dsimp only at h
    by_cases hzip : fs.isZip fp = true
    · rw [if_pos hzip] at h
      by_cases hopen : fs.zipOpenOk fp = true
      · rw [if_pos hopen] at h
        cases hread : zipSubTry fs fp zp (splitext nm).1 (extsOf nm) [chars "images", []] with
        | none => rw [hread] at h; simp at h
        | some p =>
          obtain ⟨e, dta⟩ := p
          rw [hread] at h
          simp only [PyResult.ok.injEq, Option.some.injEq] at h
          exact ⟨fp, zp, e, dta, rfl, hzip, hopen, hread, h.symm⟩
      · rw [if_neg hopen] at h; simp at h
    · rw [if_neg hzip] at h; simp at h

theorem walkPhase_exn_inv {fs : FS} {fuel nm d}
    (h : walkPhase fs fuel nm d = .exn) :
    ∃ fp zp, archiveWalk fs fuel d [] = some (fp, zp) ∧
      fs.isZip fp = true ∧ fs.zipOpenOk fp = false := by
  simp only [walkPhase] at h
  cases hwalk : archiveWalk fs fuel d [] with
  | none => rw [hwalk] at h; simp at h
  | some pr =>
    obtain ⟨fp, zp⟩ := pr
    rw [hwalk] at h
    dsimp only at h
    by_cases hzip : fs.isZip fp = true
    · rw [if_pos hzip] at h
      by_cases hopen : fs.zipOpenOk fp = true
      · rw [if_pos hopen] at h
        cases hread : zipSubTry fs fp zp (splitext nm).1 (extsOf nm) [chars "images", []] with
        | none => rw [hread] at h; simp at h
        | some p => obtain ⟨e, dta⟩ := p; rw [hread] at h; simp at h
      · exact ⟨fp, zp, rfl, hzip, by simpa using hopen⟩
    · rw [if_neg hzip] at h; simp at h

theorem searchDir_glob_found {fs : FS} {fuel nm sz d rh}
    (hg : globPhase fs.dirList (extsOf nm) (patternOf nm) d (subdirsOf sz) = some rh) :
    searchDir fs fuel nm sz d = .ok (some rh) := by
  simp [searchDir, hg]

theorem searchDir_ok_some_inv {fs : FS} {fuel nm sz d rh}
    (h : searchDir fs fuel nm sz d = .ok (some rh)) :
    globPhase fs.dirList (extsOf nm) (patternOf nm) d (subdirsOf sz) = some rh ∨
      (∃ e dta, zipTryExts fs (zipfnOf d) (splitext nm).1 (extsOf nm) = some (e, dta) ∧
        rh = (ImageRef.data dta, Hit.imagesZip (zipfnOf d) e)) ∨
      (∃ fp zp e dta, archiveWalk fs fuel d [] = some (fp, zp) ∧
        zipSubTry fs fp zp (splitext nm).1 (extsOf nm) [chars "images", []] = some (e, dta) ∧
        rh = (ImageRef.data dta, Hit.enclosingZip fp e)) := by
  unfold searchDir at h
  cases hg : globPhase fs.dirList (extsOf nm) (patternOf nm) d (subdirsOf sz) with
  | some rh' =>
    rw [hg] at h
    dsimp only at h
    simp only [PyResult.ok.injEq, Option.some.injEq] at h
    left; rw [h]
  | none =>
    rw [hg] at h
    dsimp only at h
    cases hz : imagesZipPhase fs nm d with
    | ok o =>
      cases o with
      | some rh' =>
        rw [hz] at h
        dsimp only at h
        simp only [PyResult.ok.injEq, Option.some.injEq] at h
        obtain ⟨_, _, e, dta, hread, hrh⟩ := imagesZipPhase_ok_some_inv hz
        exact Or.inr (Or.inl ⟨e, dta, hread, by rw [← h]; exact hrh⟩)
      | none =>
        rw [hz] at h
        dsimp only at h
        obtain ⟨fp, zp, e, dta, hwalk, _, _, hread, hrh⟩ := walkPhase_ok_some_inv h
        exact Or.inr (Or.inr ⟨fp, zp, e, dta, hwalk, hread, hrh⟩)
    | exn => rw [hz] at h; dsimp only at h; simp at h
    | hang => rw [hz] at h; dsimp only at h; simp at h

theorem searchDir_exn_inv {fs : FS} {fuel nm sz d}
    (h : searchDir fs fuel nm sz d = .exn) :
    (fs.isFile (zipfnOf d) = true ∧ fs.zipOpenOk (zipfnOf d) = false) ∨
      (∃ fp zp, archiveWalk fs fuel d [] = some (fp, zp) ∧
        fs.isZip fp = true ∧ fs.zipOpenOk fp = false) := by
  unfold searchDir at h
  cases hg : globPhase fs.dirList (extsOf nm) (patternOf nm) d (subdirsOf sz) with
  | some rh' => rw [hg] at h; dsimp only at h; simp at h
  | none =>
    rw [hg] at h
    dsimp only at h
    cases hz : imagesZipPhase fs nm d with
    | ok o =>
      cases o with
      | some rh' => rw [hz] at h; dsimp only at h; simp at h
      | none => rw [hz] at h; dsimp only at h; exact Or.inr (walkPhase_exn_inv h)
    | exn => exact Or.inl (imagesZipPhase_exn_inv hz)
    | hang => rw [hz] at h; dsimp only at h; simp at h

/-! ### Short-circuit lemmas -/

theorem scanFiles_append_first {exts : List (List Char)} {l₁ : List (List Char)}
    {f : List Char} (l₂ : List (List Char))
    (h₁ : ∀ g ∈ l₁, (splitext g).2 ∉ exts) (h₂ : (splitext f).2 ∈ exts) :
    scanFiles exts (l₁ ++ f :: l₂) = some (ImageRef.file f, Hit.globFile f) := by
  induction l₁ with
  | nil => simp [scanFiles, h₂]
  | cons g gs ih =>
    have hg := h₁ g (by simp)
    simp only [List.cons_append, scanFiles]
    rw [if_neg hg]
    exact ih (fun g' hg' => h₁ g' (by simp [hg']))

theorem globPhase_cons_some {dl exts pat d s subs rh}
    (h : globSub dl exts pat d s = some rh) :
    globPhase dl exts pat d (s :: subs) = some rh := by
  simp [globPhase, h]

theorem globPhase_cons_none {dl exts pat d s subs}
    (h : globSub dl exts pat d s = none) :
    globPhase dl exts pat d (s :: subs) = globPhase dl exts pat d subs := by
  simp [globPhase, h]

theorem zipTryExts_cons_found {fs : FS} {z bn e dta} (es : List (List Char))
    (h : fs.zipRead z (bn ++ e) = some dta) :
    zipTryExts fs z bn (e :: es) = some (bn ++ e, dta) := by
  simp [zipTryExts, h]

theorem zipTryExts_cons_miss {fs : FS} {z bn e} (es : List (List Char))
    (h : fs.zipRead z (bn ++ e) = none) :
    zipTryExts fs z bn (e :: es) = zipTryExts fs z bn es := by
  simp [zipTryExts, h]

/-! ### Claim C2 -/

/-- C2: every lookup returns at most one resource reference, and the search
stops at the first matching candidate — once a path entry matches, later
path entries are never examined (the result is the same for every
continuation of the search path); once a subdirectory probe matches, later
subdirectories are irrelevant; once a glob match is found, the archive
machinery (`isFile`, `isZip`, `zipOpenOk`, `zipRead`) and the remaining fuel
are never consulted; within a directory listing the first accepted file
wins independently of what follows it; within an archive the first readable
extension wins independently of the remaining extensions. -/
theorem C2_stops_at_first_match :
    (∀ (fs : FS) (fuel : Nat) (nm : List Char) (sz : Option (Nat × Nat)) (d : List Char)
        (rh : ImageRef × Hit) (rest rest' : List (List Char)),
      searchDir fs fuel nm sz d = .ok (some rh) →
        locateImageF fs fuel nm sz (d :: rest) = .ok (some rh) ∧
        locateImageF fs fuel nm sz (d :: rest) = locateImageF fs fuel nm sz (d :: rest')) ∧
    (∀ dl exts (pat d s : List Char) (subs subs' : List (List Char)) rh,
      globSub dl exts pat d s = some rh →
        globPhase dl exts pat d (s :: subs) = some rh ∧
        globPhase dl exts pat d (s :: subs) = globPhase dl exts pat d (s :: subs')) ∧
    (∀ dl iF iZ oK rd iF' iZ' oK' rd' (fuel fuel' : Nat) (nm : List Char)
        (sz : Option (Nat × Nat)) (d : List Char) (rh : ImageRef × Hit),
      globPhase dl (extsOf nm) (patternOf nm) d (subdirsOf sz) = some rh →
        searchDir ⟨dl, iF, iZ, oK, rd⟩ fuel nm sz d =
          searchDir ⟨dl, iF', iZ', oK', rd'⟩ fuel' nm sz d) ∧
    (∀ (exts : List (List Char)) (l₁ : List (List Char)) (f : List Char)
        (l₂ l₂' : List (List Char)),
      (∀ g ∈ l₁, (splitext g).2 ∉ exts) → (splitext f).2 ∈ exts →
        scanFiles exts (l₁ ++ f :: l₂) = some (ImageRef.file f, Hit.globFile f) ∧
        scanFiles exts (l₁ ++ f :: l₂) = scanFiles exts (l₁ ++ f :: l₂')) ∧
    (∀ (fs : FS) (z bn e : List Char) (es es' : List (List Char)) (dta : List Nat),
      fs.zipRead z (bn ++ e) = some dta →
        zipTryExts fs z bn (e :: es) = some (bn ++ e, dta) ∧
        zipTryExts fs z bn (e :: es) = zipTryExts fs z bn (e :: es')) ∧
    (∀ (fs : FS) (fuel : Nat) (nm : List Char) (sz : Option (Nat × Nat))
        (rp : List (List Char)) (x y : ImageRef × Hit),
      locateImageF fs fuel nm sz rp = .ok (some x) →
      locateImageF fs fuel nm sz rp = .ok (some y) → x = y) := by
  refine ⟨?_, ?_, ?_, ?_, ?_, ?_⟩
  · intro fs fuel nm sz d rh rest rest' h
    exact ⟨locate_cons_found rest h, (locate_cons_found rest h).trans (locate_cons_found rest' h).symm⟩
  · intro dl exts pat d s subs subs' rh h
    exact ⟨globPhase_cons_some h, (globPhase_cons_some h).trans (globPhase_cons_some h).symm⟩
  · intro dl iF iZ oK rd iF' iZ' oK' rd' fuel fuel' nm sz d rh h
    exact (searchDir_glob_found h).trans (searchDir_glob_found h).symm
  · intro exts l₁ f l₂ l₂' h₁ h₂
    exact ⟨scanFiles_append_first l₂ h₁ h₂,
      (scanFiles_append_first l₂ h₁ h₂).trans (scanFiles_append_first l₂' h₁ h₂).symm⟩
  · intro fs z bn e es es' dta h
    exact ⟨zipTryExts_cons_found es h, (zipTryExts_cons_found es h).trans (zipTryExts_cons_found es' h).symm⟩
  · intro fs fuel nm sz rp x y h₁ h₂
    rw [h₁] at h₂
    simpa using h₂

/-- C2 witness: on a concrete filesystem where `/p` matches, appending a
further path entry does not change the result. -/
theorem C2_witness :
    locateImageF fsFoo 10 (chars "foo.png") none [chars "/p", chars "/q"] =
      .ok (some (ImageRef.file (chars "/p/images/foo.png"),
        Hit.globFile (chars "/p/images/foo.png"))) :=
  (C2_stops_at_first_match.1 fsFoo 10 (chars "foo.png") none (chars "/p")
    (ImageRef.file (chars "/p/images/foo.png"), Hit.globFile (chars "/p/images/foo.png"))
    [chars "/q"] [] (by decide)).1

/-! ### Claim C4 -/

theorem zipTryExts_append_first {fs : FS} {z bn : List Char} {es₁ : List (List Char)}
    {e : List Char} {dta : List Nat} (es₂ : List (List Char))
    (h₁ : ∀ e' ∈ es₁, fs.zipRead z (bn ++ e') = none)
    (h₂ : fs.zipRead z (bn ++ e) = some dta) :
    zipTryExts fs z bn (es₁ ++ e :: es₂) = some (bn ++ e, dta) := by
  induction es₁ with
  | nil => simp [zipTryExts, h₂]
  | cons e' es ih =>
    have he' := h₁ e' (by simp)
    simp only [List.cons_append, zipTryExts, he']
    exact ih (fun x hx => h₁ x (by simp [hx]))

/-- C4 counterexample: with name `foo` and a directory whose listing holds
`foo.jpg` before `foo.png`, the lookup returns the `.jpg` file, although
`.png` comes first in the recognized extension list, so the claim that the
extension earlier in the list wins inside a directory is false. -/
theorem C4_counterexample :
    locateImageF fsOrder 10 (chars "foo") none [chars "/p"] =
      .ok (some (ImageRef.file (chars "/p/images/foo.jpg"),
        Hit.globFile (chars "/p/images/foo.jpg"))) ∧
    ImageRef.file (chars "/p/images/foo.jpg") ≠
      ImageRef.file (chars "/p/images/foo.png") :=
  ⟨by decide, by decide⟩

/-- C4 amended: the recognized extension list is the fixed
`['.png', '.jpg', '.bmp', '.gif', '.ico']`; in archives the extensions are
tried in exactly that order and the first readable one wins; in directories,
however, glob candidates are examined in directory-listing order and the
first file whose extension belongs to the list is returned, so when two
files with the same basename exist in one directory the earlier-listed one
wins, not the one whose extension comes earlier in the list. -/
theorem C4_amended :
    IMAGE_EXTENSIONS = [chars ".png", chars ".jpg", chars ".bmp", chars ".gif", chars ".ico"] ∧
    (∀ (exts : List (List Char)) (l₁ : List (List Char)) (f : List Char)
        (l₂ : List (List Char)),
      (∀ g ∈ l₁, (splitext g).2 ∉ exts) → (splitext f).2 ∈ exts →
        scanFiles exts (l₁ ++ f :: l₂) = some (ImageRef.file f, Hit.globFile f)) ∧
    (∀ (fs : FS) (z bn : List Char) (es₁ : List (List Char)) (e : List Char)
        (es₂ : List (List Char)) (dta : List Nat),
      (∀ e' ∈ es₁, fs.zipRead z (bn ++ e') = none) →
      fs.zipRead z (bn ++ e) = some dta →
        zipTryExts fs z bn (es₁ ++ e :: es₂) = some (bn ++ e, dta)) := by
  refine ⟨rfl, ?_, ?_⟩
  · intro exts l₁ f l₂ h₁ h₂
    exact scanFiles_append_first l₂ h₁ h₂
  · intro fs z bn es₁ e es₂ dta h₁ h₂
    exact zipTryExts_append_first es₂ h₁ h₂

/-- C4 witness: in an archive holding only `foo.jpg`, the `.png` probe
fails and the `.jpg` probe, next in list order, is returned. -/
theorem C4_witness :
    zipTryExts fsZipJpg (chars "/p/images.zip") (chars "foo")
      ([chars ".png"] ++ chars ".jpg" :: [chars ".bmp", chars ".gif", chars ".ico"]) =
      some (chars "foo" ++ chars ".jpg", [5]) :=
  C4_amended.2.2 fsZipJpg (chars "/p/images.zip") (chars "foo") [chars ".png"]
    (chars ".jpg") [chars ".bmp", chars ".gif", chars ".ico"] [5]
    (by decide) (by decide)

/-! ### Claim C5 -/

/-- C5: with a size hint the subdirectories of a path entry are probed in
the order size-specific (`images/WxH`), then `images`, then the entry
itself, and without a hint `images` then the entry; a match in an earlier
subdirectory is returned in preference to anything later. -/
theorem C5_subdir_order :
    (∀ w h, subdirsOf (some (w, h)) = [sizeSubdir w h, chars "images", []]) ∧
    subdirsOf none = [chars "images", []] ∧
    (∀ (fs : FS) (fuel : Nat) (nm : List Char) (w h : Nat) (d : List Char)
        (rest : List (List Char)) (rh : ImageRef × Hit),
      globSub fs.dirList (extsOf nm) (patternOf nm) d (sizeSubdir w h) = some rh →
        locateImageF fs fuel nm (some (w, h)) (d :: rest) = .ok (some rh)) ∧
    (∀ (fs : FS) (fuel : Nat) (nm : List Char) (w h : Nat) (d : List Char)
        (rest : List (List Char)) (rh : ImageRef × Hit),
      globSub fs.dirList (extsOf nm) (patternOf nm) d (sizeSubdir w h) = none →
      globSub fs.dirList (extsOf nm) (patternOf nm) d (chars "images") = some rh →
        locateImageF fs fuel nm (some (w, h)) (d :: rest) = .ok (some rh)) ∧
    (∀ (fs : FS) (fuel : Nat) (nm : List Char) (w h : Nat) (d : List Char)
        (rest : List (List Char)) (rh : ImageRef × Hit),
      globSub fs.dirList (extsOf nm) (patternOf nm) d (sizeSubdir w h) = none →
      globSub fs.dirList (extsOf nm) (patternOf nm) d (chars "images") = none →
      globSub fs.dirList (extsOf nm) (patternOf nm) d [] = some rh →
        locateImageF fs fuel nm (some (w, h)) (d :: rest) = .ok (some rh)) ∧
    (∀ (fs : FS) (fuel : Nat) (nm : List Char) (d : List Char)
        (rest : List (List Char)) (rh : ImageRef × Hit),
      globSub fs.dirList (extsOf nm) (patternOf nm) d (chars "images") = some rh →
        locateImageF fs fuel nm none (d :: rest) = .ok (some rh)) ∧
    (∀ (fs : FS) (fuel : Nat) (nm : List Char) (d : List Char)
        (rest : List (List Char)) (rh : ImageRef × Hit),
      globSub fs.dirList (extsOf nm) (patternOf nm) d (chars "images") = none →
      globSub fs.dirList (extsOf nm) (patternOf nm) d [] = some rh →
        locateImageF fs fuel nm none (d :: rest) = .ok (some rh)) := by
  refine ⟨fun w h => rfl, rfl, ?_, ?_, ?_, ?_, ?_⟩
  · intro fs fuel nm w h d rest rh h1
    exact locate_cons_found rest (searchDir_glob_found (globPhase_cons_some h1))
  · intro fs fuel nm w h d rest rh h1 h2
    exact locate_cons_found rest (searchDir_glob_found
      ((globPhase_cons_none h1).trans (globPhase_cons_some h2)))
  · intro fs fuel nm w h d rest rh h1 h2 h3
    exact locate_cons_found rest (searchDir_glob_found
      (((globPhase_cons_none h1).trans (globPhase_cons_none h2)).trans
        (globPhase_cons_some h3)))
  · intro fs fuel nm d rest rh h1
    exact locate_cons_found rest (searchDir_glob_found (globPhase_cons_some h1))
  · intro fs fuel nm d rest rh h1 h2
    exact locate_cons_found rest (searchDir_glob_found
      ((globPhase_cons_none h1).trans (globPhase_cons_some h2)))

/-- C5 witness: with size hint `(2, 3)` and `foo.png` present both in
`/p/images/2x3` and `/p/images`, the size-specific copy is returned. -/
theorem C5_witness :
    locateImageF fsSize 10 (chars "foo") (some (2, 3)) [chars "/p"] =
      .ok (some (ImageRef.file (chars "/p/images/2x3/foo.png"),
        Hit.globFile (chars "/p/images/2x3/foo.png"))) :=
  C5_subdir_order.2.2.1 fsSize 10 (chars "foo") 2 3 (chars "/p") []
    (ImageRef.file (chars "/p/images/2x3/foo.png"),
      Hit.globFile (chars "/p/images/2x3/foo.png")) (by decide)

/-! ### Claim C6 -/

/-- C6 counterexample: with no direct file match, an `images.zip` in `/p`
holding the entry `images/foo.png` (and nothing at the archive root), the
lookup returns no result: entries under `images/` inside `images.zip` are
never consulted, so the claim that such an entry yields a data-backed
reference is false. -/
theorem C6_counterexample :
    fsZipSub.zipRead (chars "/p/images.zip") (chars "images/foo.png") = some [7] ∧
    locateImageF fsZipSub 10 (chars "foo.png") none [chars "/p"] = .ok none :=
  ⟨by decide, by decide⟩

/-- C6 amended: when the glob phase of a path entry finds nothing, an
existing and openable `images.zip` in that entry is consulted only at the
archive root (`basename + extension`), and a readable root entry is
returned as a data-backed reference. -/
theorem C6_images_zip_amended :
    ∀ (fs : FS) (fuel : Nat) (nm : List Char) (sz : Option (Nat × Nat)) (d : List Char)
      (rest : List (List Char)) (e : List Char) (dta : List Nat),
      globPhase fs.dirList (extsOf nm) (patternOf nm) d (subdirsOf sz) = none →
      fs.isFile (zipfnOf d) = true →
      fs.zipOpenOk (zipfnOf d) = true →
      zipTryExts fs (zipfnOf d) (splitext nm).1 (extsOf nm) = some (e, dta) →
      locateImageF fs fuel nm sz (d :: rest) =
        .ok (some (ImageRef.data dta, Hit.imagesZip (zipfnOf d) e)) := by
  intro fs fuel nm sz d rest e dta hg hf ho hr
  have hz : imagesZipPhase fs nm d =
      .ok (some (ImageRef.data dta, Hit.imagesZip (zipfnOf d) e)) := by
    simp [imagesZipPhase, hf, ho, hr]
  have hs : searchDir fs fuel nm sz d =
      .ok (some (ImageRef.data dta, Hit.imagesZip (zipfnOf d) e)) := by
    simp [searchDir, hg, hz]
  exact locate_cons_found rest hs

/-- C6 witness: a root entry `foo.png` of `/p/images.zip` is found and its
bytes are returned. -/
theorem C6_witness :
    locateImageF fsZipRoot 10 (chars "foo.png") none [chars "/p"] =
      .ok (some (ImageRef.data [7], Hit.imagesZip (chars "/p/images.zip") (chars "foo.png"))) := by
  have h := C6_images_zip_amended fsZipRoot 10 (chars "foo.png") none (chars "/p") []
    (chars "foo.png") [7] (by decide) (by decide) (by decide) (by decide)
  exact h.trans (by decide)

/-! ### Claim C1 -/

theorem searchDir_of_noMatch {fs : FS} {fuel nm sz d}
    (h : NoMatchDir fs fuel nm sz d) : searchDir fs fuel nm sz d = .ok none := by
  obtain ⟨hg, hzip, fp, zp, hwalk, hz⟩ := h
  have hip : imagesZipPhase fs nm d = .ok none := by
    by_cases hf : fs.isFile (zipfnOf d) = true
    · obtain ⟨ho, hr⟩ := hzip hf
      simp [imagesZipPhase, hf, ho, hr]
    · exact imagesZipPhase_skip (by simpa using hf)
  have hwp : walkPhase fs fuel nm d = .ok none := by
    by_cases hzf : fs.isZip fp = true
    · obtain ⟨ho, hr⟩ := hz hzf
      simp [walkPhase, hwalk, hzf, ho, hr]
    · have hzf' : fs.isZip fp = false := by simpa using hzf
      simp [walkPhase, hwalk, hzf']
  simp [searchDir, hg, hip, hwp]

/-- C1 counterexample: `/p` holds no matching candidate at all, yet the
lookup raises instead of returning the null result: `images.zip` exists as
a file but is not a valid archive, and the `ZipFile` constructor sits
outside the `try`, so its failure propagates.  Absence is here surfaced as
an error, refuting the claim. -/
theorem C1_counterexample :
    locateImageF fsBadZipA 10 (chars "a.png") none [chars "/p"] = .exn ∧
    (PyResult.exn : PyResult (Option (ImageRef × Hit))) ≠ .ok none :=
  ⟨by decide, by decide⟩

/-- C1 amended: when no candidate in any path entry matches, every
archive-boundary walk terminates, and every existing `images.zip` and every
enclosing archive opens, the lookup returns the null result and raises no
exception. -/
theorem C1_no_match_amended :
    ∀ (fs : FS) (fuel : Nat) (nm : List Char) (sz : Option (Nat × Nat))
      (rp : List (List Char)),
      (∀ d ∈ rp, NoMatchDir fs fuel nm sz d) →
      locateImageF fs fuel nm sz rp = .ok none := by
  intro fs fuel nm sz rp h
  induction rp with
  | nil => rfl
  | cons d rest ih =>
    rw [locate_cons_skip rest (searchDir_of_noMatch (h d (by simp)))]
    exact ih (fun d' hd' => h d' (by simp [hd']))

/-- C1 witness: on an empty filesystem the lookup over `['/q']` returns the
null result. -/
theorem C1_witness :
    locateImageF emptyFS 10 (chars "foo.png") none [chars "/q"] = .ok none :=
  C1_no_match_amended emptyFS 10 (chars "foo.png") none [chars "/q"] (by
    intro d hd
    simp only [List.mem_singleton] at hd
    subst hd
    exact ⟨by decide, by decide, chars "/", chars "q", by decide, by decide⟩)

/-! ### Claim C9 -/

/-- C9 counterexample: an error while opening `images.zip` (an existing
file that is not a valid archive) propagates out of the lookup, refuting
the claim that every archive error is caught and treated as a non-match. -/
theorem C9_counterexample :
    locateImageF fsBadZipB 10 (chars "b.png") none [chars "/r"] = .exn ∧
    (PyResult.exn : PyResult (Option (ImageRef × Hit))) ≠ .ok none :=
  ⟨by decide, by decide⟩

/-- C9 amended: errors raised while reading an archive entry (`zip_file.read`)
are caught and the search continues — after an openable `images.zip` whose
reads all fail, the search proceeds to the enclosing-archive phase — and the
only archive errors that escape the lookup are failures of the `ZipFile`
constructor itself, on an existing `images.zip` or on the archive found by
the upward walk. -/
theorem C9_archive_errors_amended :
    (∀ (fs : FS) (fuel : Nat) (nm : List Char) (sz : Option (Nat × Nat))
        (rp : List (List Char)),
      locateImageF fs fuel nm sz rp = .exn →
        ∃ d ∈ rp, (fs.isFile (zipfnOf d) = true ∧ fs.zipOpenOk (zipfnOf d) = false) ∨
          (∃ fp zp, archiveWalk fs fuel d [] = some (fp, zp) ∧
            fs.isZip fp = true ∧ fs.zipOpenOk fp = false)) ∧
    (∀ (fs : FS) (fuel : Nat) (nm : List Char) (sz : Option (Nat × Nat)) (d : List Char),
      globPhase fs.dirList (extsOf nm) (patternOf nm) d (subdirsOf sz) = none →
      fs.isFile (zipfnOf d) = true →
      fs.zipOpenOk (zipfnOf d) = true →
      zipTryExts fs (zipfnOf d) (splitext nm).1 (extsOf nm) = none →
      searchDir fs fuel nm sz d = walkPhase fs fuel nm d) := by
  constructor
  · intro fs fuel nm sz rp h
    obtain ⟨d, hd, hs⟩ := locate_exn_inv h
    exact ⟨d, hd, searchDir_exn_inv hs⟩
  · intro fs fuel nm sz d hg hf ho hr
    have hz : imagesZipPhase fs nm d = .ok none := by simp [imagesZipPhase, hf, ho, hr]
    simp [searchDir, hg, hz]

/-- C9 witness: the exception raised on `/p` with a corrupt `images.zip`
is traced to the `ZipFile` constructor failure on that file. -/
theorem C9_witness :
    ∃ d ∈ [chars "/p"],
      (fsBadZipA.isFile (zipfnOf d) = true ∧ fsBadZipA.zipOpenOk (zipfnOf d) = false) ∨
      (∃ fp zp, archiveWalk fsBadZipA 10 d [] = some (fp, zp) ∧
        fsBadZipA.isZip fp = true ∧ fsBadZipA.zipOpenOk fp = false) :=
  C9_archive_errors_amended.1 fsBadZipA 10 (chars "a.png") none [chars "/p"] (by decide)

/-! ### Claim C10 -/

theorem rstripSlash_ne_nil {b : Char} (l : List Char) (hb : b ≠ '/') :
    rstripSlash (b :: l) ≠ [] := by
  by_cases hr : rstripSlash l = []
  · simp [rstripSlash, hr, hb]
  · simp [rstripSlash, hr]

theorem rstripSlash_cons_of_ne {a : Char} {l : List Char} (h : rstripSlash l ≠ []) :
    rstripSlash (a :: l) = a :: rstripSlash l := by
  simp [rstripSlash, h]

theorem rstripSlash_cons_eq (c : Char) (l : List Char) :
    rstripSlash (c :: l) =
      if rstripSlash l = [] then (if c = '/' then [] else [c]) else c :: rstripSlash l := rfl

theorem rstripSlash_length_lt {l : List Char} (h : l.getLast? = some '/') :
    (rstripSlash l).length < l.length := by
  induction l with
  | nil => simp at h
  | cons c cs ih =>
    rw [rstripSlash_cons_eq]
    cases cs with
    | nil =>
      have hc : c = '/' := by simpa using h
      rw [if_pos (show rstripSlash ([] : List Char) = [] from rfl), if_pos hc]
      simp
    | cons d ds =>
      have h' : (d :: ds).getLast? = some '/' := by
        rw [List.getLast?_cons_cons] at h; exact h
      have ihlt := ih h'
      by_cases hr : rstripSlash (d :: ds) = []
      · rw [if_pos hr]
        by_cases hc : c = '/'
        · rw [if_pos hc]
          simp
        · rw [if_neg hc]
          simp only [List.length_cons, List.length_nil]
          omega

      · rw [if_neg hr]
        simp only [List.length_cons] at ihlt ⊢
        omega

theorem lastIdxOf_isSome_of_mem {c : Char} {l : List Char} (h : c ∈ l) :
    lastIdxOf c l ≠ none := by
  induction l with
  | nil => simp at h
  | cons a as ih =>
    simp only [lastIdxOf]
    cases hL : lastIdxOf c as with
    | some j => simp
    | none =>
      rcases List.mem_cons.mp h with ha | has
      · simp [← ha]
      · exact absurd hL (ih has)

theorem lastIdxOf_get {c : Char} {l : List Char} {j : Nat} (h : lastIdxOf c l = some j) :
    l.get? j = some c := by
  induction l generalizing j with
  | nil => simp [lastIdxOf] at h
  | cons a as ih =>
    simp only [lastIdxOf] at h
    cases hL : lastIdxOf c as with
    | some j' =>
      rw [hL] at h
      injection h with h'
      subst h'
      simpa using ih hL
    | none =>
      rw [hL] at h
      by_cases ha : a = c
      · rw [if_pos ha] at h
        injection h with h'
        subst h'
        simpa using ha
      · rw [if_neg ha] at h
        simp at h

theorem take_getLast {l : List Char} {j : Nat} {c : Char} (h : l.get? j = some c) :
    (l.take (j + 1)).getLast? = some c := by
  induction l generalizing j with
  | nil => simp at h
  | cons a as ih =>
    cases j with
    | zero =>
      have ha : a = c := by simpa using h
      simp [ha]
    | succ j' =>
      have h' : as.get? j' = some c := by simpa using h
      have htail := ih h'
      have hlt : j' < as.length := (List.get?_eq_some.mp h').1
      have hne : as.take (j' + 1) ≠ [] := by
        have : (as.take (j' + 1)).length > 0 := by
          rw [List.length_take]; omega
        exact List.ne_nil_of_length_pos this
      rw [List.take_succ_cons]
      cases ht : as.take (j' + 1) with
      | nil => exact absurd ht hne
      | cons x xs =>
        rw [ht] at htail
        rw [List.getLast?_cons_cons]
        exact htail

theorem pySplit_step {p : List Char} (hhead : p.head? = some '/')
    (h1 : p.get? 1 ≠ some '/') (hne : p ≠ ['/']) :
    (pySplit p).1.head? = some '/' ∧ (pySplit p).1.get? 1 ≠ some '/' ∧
      (pySplit p).1.length < p.length := by
  cases p with
  | nil => simp at hhead
  | cons a q =>
    have ha : a = '/' := by simpa using hhead
    subst ha
    cases q with
    | nil => exact absurd rfl hne
    | cons b q' =>
      have hb : b ≠ '/' := fun hb => h1 (by simp [hb])
      have hmem : '/' ∈ ('/' :: b :: q') := by simp
      cases hL : lastIdxOf '/' ('/' :: b :: q') with
      | none => exact absurd hL (lastIdxOf_isSome_of_mem hmem)
      | some j =>
        have hget : ('/' :: b :: q').get? j = some '/' := lastIdxOf_get hL
        have hjlt : j < ('/' :: b :: q').length := (List.get?_eq_some.mp hget).1
        simp only [pySplit, hL]
        cases j with
        | zero =>
          have htake : ('/' :: b :: q').take 1 = ['/'] := by simp
          rw [htake]
          rw [if_neg (by simp [allSlash])]
          refine ⟨by simp, by simp, by simp⟩
        | succ k =>
          have htake : ('/' :: b :: q').take (k + 2) = '/' :: b :: q'.take k := by
            simp [List.take_succ_cons]
          rw [htake]
          have hall : ¬ allSlash ('/' :: b :: q'.take k) = true := by
            intro hall
            have := List.all_eq_true.mp hall b (by simp)
            exact hb (by simpa using this)
          rw [if_pos ⟨by simp, hall⟩]
          have hrne : rstripSlash (b :: q'.take k) ≠ [] := rstripSlash_ne_nil _ hb
          have hcons : rstripSlash ('/' :: b :: q'.take k) =
              '/' :: rstripSlash (b :: q'.take k) := rstripSlash_cons_of_ne hrne
          have hlast : ('/' :: b :: q'.take k).getLast? = some '/' := by
            have := take_getLast hget
            rwa [htake] at this
          have hlt := rstripSlash_length_lt hlast
          refine ⟨?_, ?_, ?_⟩
          · rw [hcons]; simp
          · rw [hcons]
            cases hrs : rstripSlash (b :: q'.take k) with
            | nil => exact absurd hrs hrne
            | cons x xs =>
              have hx : x = b := by
                by_cases hr0 : rstripSlash (q'.take k) = []
                · by_cases hbq : b = '/'
                  · exact absurd hbq hb
                  · have : rstripSlash (b :: q'.take k) = [b] := by
                      simp [rstripSlash, hr0, hbq]
                    rw [this] at hrs
                    injection hrs with h1' h2'
                    exact h1'.symm
                · have : rstripSlash (b :: q'.take k) = b :: rstripSlash (q'.take k) :=
                    rstripSlash_cons_of_ne hr0
                  rw [this] at hrs
                  injection hrs with h1' h2'
                  exact h1'.symm
              subst hx
              simp [hb]
          · have hlen : (q'.take k).length ≤ q'.length := by rw [List.length_take]; omega
            simp only [List.length_cons] at hlt ⊢
            omega

theorem archiveWalk_terminates_abs (fs : FS) :
    ∀ (n : Nat) (p zp : List Char), p.head? = some '/' → p.get? 1 ≠ some '/' →
      p.length < n → (archiveWalk fs n p zp).isSome = true := by
  intro n
  induction n with
  | zero => intro p zp _ _ hlt; omega
  | succ m ih =>
    intro p zp hh h1 hlt
    rw [archiveWalk]
    by_cases hguard : fs.isZip p = false ∧ p ≠ ['\\'] ∧ p ≠ ['/']
    · rw [if_pos hguard]
      have hstep := pySplit_step hh h1 hguard.2.2
      exact ih (pySplit p).1 _ hstep.1 hstep.2.1 (by omega)
    · rw [if_neg hguard]
      simp

theorem archiveWalk_empty_nil : ∀ (n : Nat) (zp : List Char),
    archiveWalk emptyFS n [] zp = none := by
  intro n
  induction n with
  | zero => intro zp; rfl
  | succ m ih =>
    intro zp
    rw [archiveWalk]
    rw [if_pos (by refine ⟨rfl, by decide, by decide⟩)]
    exact ih _

/-- C10 counterexample: on the relative path entry `a` (on a filesystem
with no zip archives) the archive-boundary walk never terminates: once
`os.path.split` reaches the empty string it returns the empty string again
while the loop guard stays true, so no amount of fuel makes the walk
return, refuting the claim that the walk terminates for relative paths. -/
theorem C10_counterexample : ¬ WalkTerminates emptyFS (chars "a") := by
  rintro ⟨n, hn⟩
  cases n with
  | zero => simp [archiveWalk] at hn
  | succ m =>
    have h0 : archiveWalk emptyFS (m + 1) (chars "a") [] = none := by
      rw [archiveWalk]
      rw [if_pos (by refine ⟨rfl, by decide, by decide⟩)]
      exact archiveWalk_empty_nil m _
    rw [h0] at hn
    simp at hn

/-- C10 amended: the archive-boundary walk terminates for every absolute
posix path entry that does not begin with a double slash (on any
filesystem): repeated `os.path.split` keeps the leading slash, shortens the
path, and reaches `'/'` (or a zipfile) within `length + 1` iterations.  For
relative path entries the walk diverges (see the counterexample). -/
theorem C10_walk_terminates_amended :
    ∀ (fs : FS) (p : List Char), p.head? = some '/' → p.get? 1 ≠ some '/' →
      (archiveWalk fs (p.length + 1) p []).isSome = true := by
  intro fs p hh h1
  exact archiveWalk_terminates_abs fs (p.length + 1) p [] hh h1 (by omega)

/-- C10 witness: the walk terminates on the absolute path `/etc` within its
fuel bound. -/
theorem C10_witness :
    (chars "/etc").head? = some '/' ∧
      (archiveWalk emptyFS ((chars "/etc").length + 1) (chars "/etc") []).isSome = true :=
  ⟨by decide, C10_walk_terminates_amended emptyFS (chars "/etc") (by decide) (by decide)⟩

/-! ### Claim C3 -/

theorem splitext_append (p : List Char) : (splitext p).1 ++ (splitext p).2 = p := by
  unfold splitext
  cases lastIdxOf '.' p with
  | none => simp
  | some di =>
    dsimp only
    split
    · exact List.take_append_drop di p
    · simp

theorem pyJoin_suffix (x y : List Char) : ∃ pre, pyJoin x y = pre ++ y := by
  unfold pyJoin
  by_cases h1 : y.head? = some '/'
  · rw [if_pos h1]; exact ⟨[], rfl⟩
  · rw [if_neg h1]
    by_cases h2 : x = [] ∨ x.getLast? = some '/'
    · rw [if_pos h2]; exact ⟨x, rfl⟩
    · rw [if_neg h2]; exact ⟨x ++ ['/'], by simp⟩

theorem globTranslateF_literal :
    ∀ (n : Nat) (p : List Char), p.length < n → '*' ∉ p → '?' ∉ p → '[' ∉ p →
      globTranslateF n p = p.map GlobTok.lit := by
  intro n
  induction n with
  | zero => intro p h _ _ _; exact absurd h (by omega)
  | succ m ih =>
    intro p hlen hs hq hb
    cases p with
    | nil => rfl
    | cons c cs =>
      have hc1 : c ≠ '*' := fun h => hs (by simp [h])
      have hc2 : c ≠ '?' := fun h => hq (by simp [h])
      have hc3 : c ≠ '[' := fun h => hb (by simp [h])
      simp only [globTranslateF]
      rw [if_neg hc1, if_neg hc2, if_neg hc3, List.map_cons]
      congr 1
      exact ih cs (by simp only [List.length_cons] at hlen; omega)
        (fun h => hs (List.mem_cons_of_mem _ h))
        (fun h => hq (List.mem_cons_of_mem _ h))
        (fun h => hb (List.mem_cons_of_mem _ h))

theorem globTranslate_literal {p : List Char}
    (hs : '*' ∉ p) (hq : '?' ∉ p) (hb : '[' ∉ p) :
    globTranslate p = p.map GlobTok.lit :=
  globTranslateF_literal (p.length + 1) p (by omega) hs hq hb

theorem matchToks_lit : ∀ {pat s : List Char},
    matchToks (pat.map GlobTok.lit) s = true → s = pat := by
  intro pat
  induction pat with
  | nil =>
    intro s h
    rw [List.map_nil] at h
    simp only [matchToks] at h
    exact List.isEmpty_iff.mp h
  | cons c cs ih =>
    intro s h
    rw [List.map_cons] at h
    cases s with
    | nil => simp [matchToks] at h
    | cons c' cs' =>
      simp only [matchToks, Bool.and_eq_true, beq_iff_eq] at h
      rw [ih h.2, h.1]

theorem fnmatch_literal {pat : List Char}
    (hstar : '*' ∉ pat) (hq : '?' ∉ pat) (hb : '[' ∉ pat) :
    ∀ {s : List Char}, fnmatch pat s = true → s = pat := by
  intro s h
  unfold fnmatch at h
  rw [globTranslate_literal hstar hq hb] at h
  exact matchToks_lit h

theorem lastIdxOf_append_cons {c : Char} (xs ys : List Char) (hys : c ∉ ys) :
    lastIdxOf c (xs ++ c :: ys) = some xs.length := by
  induction xs with
  | nil =>
    simp only [List.nil_append, lastIdxOf]
    have hnone : lastIdxOf c ys = none := by
      cases hL : lastIdxOf c ys with
      | none => rfl
      | some j => exact absurd (List.get?_mem (lastIdxOf_get hL)) hys
    rw [hnone]
    simp
  | cons a as ih =>
    simp only [List.cons_append, lastIdxOf, List.append_eq]
    rw [ih]
    simp

theorem pySplit_snd_of_append {xs ys : List Char} (hys : '/' ∉ ys) :
    (pySplit (xs ++ '/' :: ys)).2 = ys := by
  have hdrop : (xs ++ '/' :: ys).drop (xs.length + 1) = ys := by
    have he : xs ++ '/' :: ys = (xs ++ ['/']) ++ ys := by simp
    have hlen : (xs ++ ['/']).length = xs.length + 1 := by simp
    rw [he, ← hlen, List.drop_left]
  unfold pySplit
  rw [lastIdxOf_append_cons xs ys hys]
  dsimp only
  split <;> exact hdrop

theorem pyJoin_eq_append_cons {x y : List Char} (hx : x ≠ []) (hy : y.head? ≠ some '/') :
    ∃ xs, pyJoin x y = xs ++ '/' :: y := by
  unfold pyJoin
  rw [if_neg hy]
  by_cases h2 : x = [] ∨ x.getLast? = some '/'
  · rw [if_pos h2]
    rcases h2 with h2 | h2
    · exact absurd h2 hx
    · have hrec : x.dropLast ++ [x.getLast hx] = x := List.dropLast_append_getLast hx
      have hg : x.getLast hx = '/' := by
        rw [List.getLast?_eq_getLast x hx] at h2
        exact Option.some_inj.mp h2
      refine ⟨x.dropLast, ?_⟩
      conv_lhs => rw [← hrec, hg]
      simp
  · rw [if_neg h2]
    exact ⟨x, rfl⟩

theorem globModel_literal_mem {dl : List Char → List (List Char)} {x nm f : List Char}
    (hstar : '*' ∉ nm) (hq : '?' ∉ nm) (hb : '[' ∉ nm) (hslash : '/' ∉ nm) (hne : nm ≠ [])
    (hmem : f ∈ globModel dl (pyJoin x nm)) : ∃ pre, f = pre ++ nm := by
  unfold globModel at hmem
  by_cases hmagic : hasMagic (pyJoin x nm) = true
  · rw [if_pos hmagic] at hmem
    have hyh : nm.head? ≠ some '/' := by
      intro hh
      cases nm with
      | nil => simp at hh
      | cons a l =>
        have : a = '/' := by simpa using hh
        exact hslash (by simp [this])
    have hx : x ≠ [] := by
      intro hxe
      subst hxe
      have hjoin : pyJoin [] nm = nm := by
        unfold pyJoin
        rw [if_neg hyh, if_pos (Or.inl rfl)]
        simp
      rw [hjoin] at hmagic
      unfold hasMagic at hmagic
      have hm3 : ('*' ∈ nm ∨ '?' ∈ nm) ∨ '[' ∈ nm := by simpa using hmagic
      rcases hm3 with (h | h) | h
      · exact hstar h
      · exact hq h
      · exact hb h
    obtain ⟨xs, hxs⟩ := pyJoin_eq_append_cons hx hyh
    have hsnd : (pySplit (pyJoin x nm)).2 = nm := by
      rw [hxs]; exact pySplit_snd_of_append hslash
    rw [hsnd] at hmem
    by_cases h1 : (pySplit (pyJoin x nm)).1 = []
    · rw [if_pos h1] at hmem
      have hfn : fnmatch nm f = true := (List.mem_filter.mp hmem).2
      exact ⟨[], by rw [fnmatch_literal hstar hq hb hfn]; rfl⟩
    · rw [if_neg h1] at hmem
      obtain ⟨n, hn, hfn⟩ := List.mem_map.mp hmem
      have hnnm : n = nm := fnmatch_literal hstar hq hb (List.mem_filter.mp hn).2
      subst hnnm
      obtain ⟨pre, hpre⟩ := pyJoin_suffix (pySplit (pyJoin x n)).1 n
      exact ⟨pre, by rw [← hfn, hpre]⟩
  · rw [if_neg hmagic] at hmem
    by_cases hex : lexists dl (pyJoin x nm) = true
    · rw [if_pos hex] at hmem
      have : f = pyJoin x nm := by simpa using hmem
      obtain ⟨pre, hpre⟩ := pyJoin_suffix x nm
      exact ⟨pre, by rw [this, hpre]⟩
    · rw [if_neg hex] at hmem
      simp at hmem

theorem scanFiles_mem {exts : List (List Char)} {l : List (List Char)} {rh}
    (h : scanFiles exts l = some rh) :
    ∃ f ∈ l, rh = (ImageRef.file f, Hit.globFile f) ∧ (splitext f).2 ∈ exts := by
  induction l with
  | nil => simp [scanFiles] at h
  | cons f rest ih =>
    rw [scanFiles] at h
    by_cases hf : (splitext f).2 ∈ exts
    · rw [if_pos hf] at h
      injection h with h'
      exact ⟨f, by simp, h'.symm, hf⟩
    · rw [if_neg hf] at h
      obtain ⟨g, hg, hrh, hgext⟩ := ih h
      exact ⟨g, by simp [hg], hrh, hgext⟩

theorem globPhase_some_inv {dl exts pat d subs rh}
    (h : globPhase dl exts pat d subs = some rh) :
    ∃ s ∈ subs, globSub dl exts pat d s = some rh := by
  induction subs with
  | nil => simp [globPhase] at h
  | cons s ss ih =>
    rw [globPhase] at h
    cases hg : globSub dl exts pat d s with
    | some rh' =>
      rw [hg] at h
      dsimp only at h
      injection h with h'
      exact ⟨s, by simp, by rw [hg, h']⟩
    | none =>
      rw [hg] at h
      dsimp only at h
      obtain ⟨s', hs', hg'⟩ := ih h
      exact ⟨s', by simp [hs'], hg'⟩

theorem zipTryExts_some_inv {fs : FS} {z bn : List Char} {exts : List (List Char)}
    {e : List Char} {dta : List Nat}
    (h : zipTryExts fs z bn exts = some (e, dta)) :
    ∃ ext ∈ exts, e = bn ++ ext ∧ fs.zipRead z (bn ++ ext) = some dta := by
  induction exts with
  | nil => simp [zipTryExts] at h
  | cons x xs ih =>
    rw [zipTryExts] at h
    cases hr : fs.zipRead z (bn ++ x) with
    | some d' =>
      rw [hr] at h
      dsimp only at h
      injection h with h'
      injection h' with h1 h2
      exact ⟨x, by simp, h1.symm, by rw [hr, h2]⟩
    | none =>
      rw [hr] at h
      dsimp only at h
      obtain ⟨ext, hmem, he, hrd⟩ := ih h
      exact ⟨ext, by simp [hmem], he, hrd⟩

theorem zipSubTryExts_some_inv {fs : FS} {z zp bn sub : List Char}
    {exts : List (List Char)} {e : List Char} {dta : List Nat}
    (h : zipSubTryExts fs z zp bn sub exts = some (e, dta)) :
    ∃ ext ∈ exts, e = zipEntryPath zp sub bn ext := by
  induction exts with
  | nil => simp [zipSubTryExts] at h
  | cons x xs ih =>
    rw [zipSubTryExts] at h
    cases hr : fs.zipRead z (zipEntryPath zp sub bn x) with
    | some d' =>
      rw [hr] at h
      dsimp only at h
      injection h with h'
      injection h' with h1 h2
      exact ⟨x, by simp, h1.symm⟩
    | none =>
      rw [hr] at h
      dsimp only at h
      obtain ⟨ext, hmem, he⟩ := ih h
      exact ⟨ext, by simp [hmem], he⟩

theorem zipSubTry_some_inv {fs : FS} {z zp bn : List Char} {exts subs : List (List Char)}
    {e : List Char} {dta : List Nat}
    (h : zipSubTry fs z zp bn exts subs = some (e, dta)) :
    ∃ sub ∈ subs, ∃ ext ∈ exts, e = zipEntryPath zp sub bn ext := by
  induction subs with
  | nil => simp [zipSubTry] at h
  | cons s ss ih =>
    rw [zipSubTry] at h
    cases hs : zipSubTryExts fs z zp bn s exts with
    | some p =>
      obtain ⟨e', dta'⟩ := p
      rw [hs] at h
      dsimp only at h
      injection h with h'
      injection h' with h1 h2
      subst h1
      obtain ⟨ext, hmem, he⟩ := zipSubTryExts_some_inv hs
      exact ⟨s, by simp, ext, hmem, he⟩
    | none =>
      rw [hs] at h
      dsimp only at h
      obtain ⟨sub, hsub, hrest⟩ := ih h
      exact ⟨sub, by simp [hsub], hrest⟩

theorem zipEntryPath_suffix (zp sub bn ext : List Char) :
    ∃ pre, zipEntryPath zp sub bn ext = pre ++ (bn ++ ext) := by
  unfold zipEntryPath
  exact ⟨(if zp = [] then [] else zp ++ ['/']) ++ (if sub = [] then [] else sub ++ ['/']),
    by simp⟩

/-- C3: for a literal image name carrying a file extension (one free of the
glob wildcard characters `*`, `?` and `[`, and of `/`), every candidate the
lookup accepts — a glob match in a directory, an `images.zip` entry, or an
enclosing-archive entry — is the name itself with that exact extension
(possibly below a directory or archive-subpath); moreover the accepted
extension list is exactly the singleton of the name's own extension, so no
other extension from the recognized list is tried. -/
theorem C3_exact_extension :
    (∀ nm : List Char, (splitext nm).2 ≠ [] →
      extsOf nm = [(splitext nm).2] ∧ patternOf nm = nm) ∧
    (∀ (fs : FS) (fuel : Nat) (nm : List Char) (sz : Option (Nat × Nat))
        (rp : List (List Char)) (r : ImageRef) (ht : Hit),
      (splitext nm).2 ≠ [] → '*' ∉ nm → '?' ∉ nm → '[' ∉ nm → '/' ∉ nm →
      locateImageF fs fuel nm sz rp = .ok (some (r, ht)) →
      ∃ pre, hitPath ht = pre ++ nm) := by
  constructor
  · intro nm hext
    exact ⟨by simp [extsOf, hext], by simp [patternOf, hext]⟩
  · intro fs fuel nm sz rp r ht hext hstar hq hb hslash hloc
    have hnm_ne : nm ≠ [] := fun he => hext (by rw [he]; rfl)
    have hexts : extsOf nm = [(splitext nm).2] := by simp [extsOf, hext]
    have hpat : patternOf nm = nm := by simp [patternOf, hext]
    obtain ⟨d, hd, hs⟩ := locate_ok_some_inv hloc
    rcases searchDir_ok_some_inv hs with hg | ⟨e, dta, hread, hrh⟩ |
      ⟨fp, zp, e, dta, hwalk, hread, hrh⟩
    · obtain ⟨s, hsub, hglob⟩ := globPhase_some_inv hg
      unfold globSub at hglob
      obtain ⟨f, hf, hrh2, hfext⟩ := scanFiles_mem hglob
      rw [hpat] at hf
      obtain ⟨pre, hpre⟩ := globModel_literal_mem hstar hq hb hslash hnm_ne hf
      have hht : ht = Hit.globFile f := congrArg Prod.snd hrh2
      rw [hht]
      exact ⟨pre, by rw [hitPath, hpre]⟩
    · rw [hexts] at hread
      obtain ⟨ext, hmem, he, _⟩ := zipTryExts_some_inv hread
      have hx : ext = (splitext nm).2 := List.mem_singleton.mp hmem
      have hht : ht = Hit.imagesZip (zipfnOf d) e := congrArg Prod.snd hrh
      rw [hht]
      refine ⟨[], ?_⟩
      rw [hitPath, he, hx]
      rw [List.nil_append]
      exact splitext_append nm
    · rw [hexts] at hread
      obtain ⟨sub, hsmem, ext, hmem, he⟩ := zipSubTry_some_inv hread
      have hx : ext = (splitext nm).2 := List.mem_singleton.mp hmem
      have hht : ht = Hit.enclosingZip fp e := congrArg Prod.snd hrh
      obtain ⟨pre, hpre⟩ := zipEntryPath_suffix zp sub (splitext nm).1 ext
      rw [hht]
      refine ⟨pre, ?_⟩
      rw [hitPath, he, hpre, hx, splitext_append nm]

/-- C3 witness: for the name `foo.png` the accepted hit is the exact file
`/p/images/foo.png`, whose path ends in the name itself. -/
theorem C3_witness :
    (splitext (chars "foo.png")).2 ≠ [] ∧
    ∃ pre, hitPath (Hit.globFile (chars "/p/images/foo.png")) = pre ++ chars "foo.png" :=
  ⟨by decide, C3_exact_extension.2 fsFoo 10 (chars "foo.png") none [chars "/p"]
    (ImageRef.file (chars "/p/images/foo.png")) (Hit.globFile (chars "/p/images/foo.png"))
    (by decide) (by decide) (by decide) (by decide) (by decide) (by decide)⟩

/-! ### Claim C7 -/

/-- C7 counterexample: with `ETS_DEBUG` set and the backend module missing,
the `ImportError` traceback's last frame is `toolkit.py` itself, whose
filename does not contain the backend module path `pyface.ui.qt4.`, so
`toolkit_object` re-raises instead of returning the placeholder — the claim
that an unfindable object always yields a placeholder without raising is
false. -/
theorem C7_counterexample :
    toolkit_object wImportErrToolkitFile (chars "dialog:Dialog") = .exn ∧
    (PyResult.exn : PyResult TkObj) ≠ .ok TkObj.unimplemented :=
  ⟨by decide, by decide⟩

/-- C7 amended: when the requested object cannot be found (module missing
or attribute missing) and — in the import-failure case — either `ETS_DEBUG`
is unset or the last traceback frame's filename contains the backend path,
`toolkit_object` returns the `Unimplemented` placeholder without raising;
the placeholder raises `NotImplementedError` exactly when instantiated,
while a real object instantiates normally. -/
theorem C7_placeholder_amended :
    ∀ (w : TkWorld) (nm mname oname : List Char),
      splitColon nm = some (mname, oname) →
      CannotFind w (toolkitBackend ++ mname) oname →
      (∀ f, w.importOutcome (toolkitBackend ++ mname) = .importError f →
        w.etsDebug = false ∨ containsSub toolkitBackend f = true) →
      toolkit_object w nm = .ok .unimplemented ∧
      instantiateTk .unimplemented = none ∧
      (∀ o, instantiateTk (.real o) = some o) := by
  intro w nm mname oname hsplit hcf hdebug
  refine ⟨?_, rfl, fun o => rfl⟩
  unfold toolkit_object
  rw [hsplit]
  dsimp only
  rcases hcf with ⟨hok, hattr⟩ | ⟨f, hf⟩
  · rw [hok]
    dsimp only
    rw [hattr]
  · rw [hf]
    dsimp only
    cases hdb : w.etsDebug with
    | false => simp [hdb]
    | true =>
      rcases hdebug f hf with hd | hc
      · rw [hdb] at hd; exact absurd hd (by simp)
      · simp [hdb, hc]

/-- C7 witness: a module that imports but lacks the attribute yields the
placeholder without raising, and the placeholder raises on instantiation. -/
theorem C7_witness :
    toolkit_object wOkNoAttr (chars "window:Dialog") = .ok .unimplemented ∧
    instantiateTk .unimplemented = none :=
  ⟨(C7_placeholder_amended wOkNoAttr (chars "window:Dialog") (chars "window")
      (chars "Dialog") (by decide) (Or.inl ⟨rfl, rfl⟩)
      (fun f hf => by simp [wOkNoAttr] at hf)).1,
   (C7_placeholder_amended wOkNoAttr (chars "window:Dialog") (chars "window")
      (chars "Dialog") (by decide) (Or.inl ⟨rfl, rfl⟩)
      (fun f hf => by simp [wOkNoAttr] at hf)).2.1⟩

/-! ### Claim C8 -/

/-- C8 counterexample: an exception from the backend import that is not an
`ImportError` propagates even with `ETS_DEBUG` unset — the `except` clause
catches only `ImportError` — so the claim that every lookup failure is
swallowed when the debug variable is unset is false. -/
theorem C8_counterexample :
    wOtherErr.etsDebug = false ∧
    toolkit_object wOtherErr (chars "api:Window") = .exn ∧
    (PyResult.exn : PyResult TkObj) ≠ .ok TkObj.unimplemented :=
  ⟨rfl, by decide, by decide⟩

/-- C8 amended: an `ImportError` from the backend import is swallowed (the
placeholder is returned) exactly when `ETS_DEBUG` is unset or the last
traceback frame's filename contains the backend path, and re-raised
otherwise; any non-`ImportError` exception from the import propagates
regardless of `ETS_DEBUG`; a missing attribute on a successfully imported
module always yields the placeholder. -/
theorem C8_debug_gating_amended :
    ∀ (w : TkWorld) (nm mname oname : List Char),
      splitColon nm = some (mname, oname) →
      (∀ f, w.importOutcome (toolkitBackend ++ mname) = .importError f →
        toolkit_object w nm =
          (if w.etsDebug = false ∨ containsSub toolkitBackend f = true
            then .ok .unimplemented else .exn)) ∧
      (w.importOutcome (toolkitBackend ++ mname) = .otherError →
        toolkit_object w nm = .exn) ∧
      (w.importOutcome (toolkitBackend ++ mname) = .ok →
        w.getattrOf (toolkitBackend ++ mname) oname = none →
        toolkit_object w nm = .ok .unimplemented) := by
  intro w nm mname oname hsplit
  refine ⟨?_, ?_, ?_⟩
  · intro f hf
    unfold toolkit_object
    rw [hsplit]
    dsimp only
    rw [hf]
    dsimp only
    cases hdb : w.etsDebug with
    | false => simp [hdb]
    | true =>
      by_cases hc : containsSub toolkitBackend f = true
      · simp [hdb, hc]
      · simp [hdb, hc]
  · intro hf
    unfold toolkit_object
    rw [hsplit]
    dsimp only
    rw [hf]
  · intro hok hattr
    unfold toolkit_object
    rw [hsplit]
    dsimp only
    rw [hok]
    dsimp only
    rw [hattr]

/-- C8 witness: with `ETS_DEBUG` set and an `ImportError` whose traceback
filename names the backend, the failure is suppressed and the placeholder
returned. -/
theorem C8_witness :
    toolkit_object wImportErrBackendFile (chars "dialog:Dialog") =
      (if wImportErrBackendFile.etsDebug = false ∨
          containsSub toolkitBackend
            (chars "/usr/lib/site-packages/pyface.ui.qt4.init.py") = true
        then PyResult.ok TkObj.unimplemented else PyResult.exn) :=
  (C8_debug_gating_amended wImportErrBackendFile (chars "dialog:Dialog")
      (chars "dialog") (chars "Dialog") (by decide)).1
    (chars "/usr/lib/site-packages/pyface.ui.qt4.init.py") (by decide)
